import Mathlib

/-!
Verification of the async-std work-stealing runtime scheduler
(`src/rt/runtime.rs`).

Tasks (`Runnable`) are opaque handles; we model them as natural numbers.
Queues are modelled as Lean lists with the head at the pop side and pushes
appended at the tail, matching the FIFO flavour of the crossbeam deques used
by the source.

The file has two parts: first all definitions (the shallow embedding of the
scheduler), then the theorems about them.
-/

set_option linter.unusedVariables false

/-- Outcome of a steal attempt, mirroring `crossbeam_deque::Steal`. -/
inductive StealRes where
  | Empty : StealRes
  | Retry : StealRes
  | Success : Nat → StealRes
deriving DecidableEq, Repr

/-- `struct Processor`: a local FIFO task queue (`worker`) plus a single-slot
buffer (`slot`) holding the next task to run. -/
structure Processor where
  worker : List Nat
  slot : Option Nat
deriving DecidableEq, Repr

namespace Processor

/-- `Processor::new`: empty queue, empty slot. -/
def new : Processor := ⟨[], none⟩

/-- `Processor::schedule`: `self.slot.replace(task)`; if the slot was occupied
the evicted task is pushed onto the tail of the local queue and a
runtime-level notify is requested.  The returned boolean records whether
`rt.notify()` was called. -/
def schedule (p : Processor) (task : Nat) : Processor × Bool :=
  match p.slot with
  | none => ({ p with slot := some task }, false)
  | some old => (⟨p.worker ++ [old], some task⟩, true)

/-- `Processor::flush_slot`: move the slot's task (if any) to the tail of the
local queue, notifying if it did. -/
def flush_slot (p : Processor) : Processor × Bool :=
  match p.slot with
  | none => (p, false)
  | some t => (⟨p.worker ++ [t], none⟩, true)

/-- `Processor::pop_task`: `self.slot.take().or_else(|| self.worker.pop())`. -/
def pop_task (p : Processor) : Option Nat × Processor :=
  match p.slot with
  | some t => (some t, { p with slot := none })
  | none =>
    match p.worker with
    | [] => (none, p)
    | t :: q => (some t, ⟨q, none⟩)

/-- Number of tasks currently held by the processor. -/
def size (p : Processor) : Nat := p.worker.length + p.slot.toList.length

end Processor

/-- Run `pop_task` up to `n` times, collecting the returned tasks in order and
stopping early at the first `None`; also returns the final processor state. -/
def drain : Nat → Processor → List Nat × Processor
  | 0, p => ([], p)
  | n + 1, p =>
    match Processor.pop_task p with
    | (none, p') => ([], p')
    | (some t, p') =>
      let r := drain n p'
      (t :: r.1, r.2)

/-- Pop every task the processor holds, in pop order. -/
def popAll (p : Processor) : List Nat × Processor := drain p.size p

/-- Perform a sequence of `schedule` calls (discarding the notify bits). -/
def scheduleAll (p : Processor) (tasks : List Nat) : Processor :=
  tasks.foldl (fun q t => (q.schedule t).1) p

/-!
## The world visible to `Machine::find_task`

A machine thread that holds its processor sees: the processor's slot, the
per-processor local queues (`queues`, of which `queues[own]` is its own local
queue, the one its `Worker` half owns and the peers' stealers reference), and
the global `injector` queue.  Steal attempts on crossbeam deques may fail
spuriously with `Retry` under contention; contention is an input to the model
(boolean flags), as is the set of tasks the reactor wakes during a
non-blocking poll and the random starting index of `steal_from_others`.
-/

/-- Scheduler-world state seen by one machine holding its processor. -/
structure PState where
  slot : Option Nat
  queues : List (List Nat)
  own : Nat
  injector : List Nat
deriving DecidableEq, Repr

/-- Environment of one `find_task` call: contention flags, whether
`quick_poll` obtained the scheduler try-lock with `polling == false`, the
tasks the reactor wakes, and the random rotation start. -/
structure FTEnv where
  gRetry : Bool
  pollOk : Bool
  woken : List Nat
  start : Nat
  peerRetry : List Bool
deriving Repr

/-- The machine's own local queue. -/
def ownQ (s : PState) : List Nat := s.queues.getD s.own []

/-- Replace the machine's own local queue. -/
def setOwn (s : PState) (q : List Nat) : PState :=
  { s with queues := s.queues.set s.own q }

/-- `Processor::pop_task` on the world state: slot first, else the head of
the own local queue. -/
def popTaskW (s : PState) : Option Nat × PState :=
  match s.slot with
  | some t => (some t, { s with slot := none })
  | none =>
    match ownQ s with
    | [] => (none, s)
    | t :: q => (some t, setOwn s q)

/-- `Processor::schedule` on the world state (used when the reactor wakes a
task on this thread: the waker funnels through `Runtime::schedule`, the
thread-local machine, and the held processor). -/
def scheduleW (s : PState) (task : Nat) : PState :=
  match s.slot with
  | none => { s with slot := some task }
  | some old => setOwn { s with slot := some task } (ownQ s ++ [old])

/-- Modelled from the spec: crossbeam's `Injector::steal_batch_and_pop`
(used by `Processor::steal_from_global`): steal a batch from the front of the
global injector into the local queue and return one task; under contention
report `Retry`.  The batch is the first half (rounded up) of the injector. -/
def steal_from_global (contended : Bool) (s : PState) : StealRes × PState :=
  if contended then (.Retry, s)
  else
    match s.injector with
    | [] => (.Empty, s)
    | t :: _ =>
      let k := (s.injector.length + 1) / 2
      let batch := s.injector.take k
      let s1 := setOwn s (ownQ s ++ batch.drop 1)
      (.Success t, { s1 with injector := s.injector.drop k })

/-- `Runtime::quick_poll` followed by the reactor delivering woken tasks to
the current thread's processor: returns whether at least one task was woken
(`Ok(true)`), and the updated state.  If the scheduler try-lock fails or
`polling` is set, the reactor is not polled at all. -/
def quick_pollW (pollOk : Bool) (woken : List Nat) (s : PState) : Bool × PState :=
  if pollOk then (!woken.isEmpty, woken.foldl scheduleW s)
  else (false, s)

/-- Modelled from the spec: crossbeam's `Stealer::steal_batch_and_pop` for
one peer index (`rt.stealers[i]`): steal the first half (rounded up) of the
victim's queue, return its first task and push the remainder of the batch
onto the thief's own queue; under contention report `Retry`.  When the victim
is the thief's own queue the batch moves from its front back to its tail. -/
def stealAt (contended : Bool) (s : PState) (i : Nat) : StealRes × PState :=
  if contended then (.Retry, s)
  else
    match s.queues.getD i [] with
    | [] => (.Empty, s)
    | t :: _ =>
      let v := s.queues.getD i []
      let k := (v.length + 1) / 2
      let batch := v.take k
      if i = s.own then
        (.Success t, { s with queues := s.queues.set i (v.drop k ++ batch.drop 1) })
      else
        let s1 := { s with queues := s.queues.set i (v.drop k) }
        (.Success t, setOwn s1 (ownQ s1 ++ batch.drop 1))

/-- Rotation of a list: `split_at start` then chain right before left. -/
def rotate (l : List α) (start : Nat) : List α := l.drop start ++ l.take start

/-- The stealer targets built in `Runtime::new`: one stealer per processor,
in processor order (`processors.iter().map(|p| p.worker.stealer())`), with no
index excluded. -/
def runtimeStealerTargets (cpus : Nat) : List Nat := List.range (Nat.max cpus 1)

/-- The iteration inside `steal_from_others`: try each stealer index in
order, returning the first success; remember whether any attempt said
`Retry`.  This is crossbeam's `FromIterator for Steal` over the lazily
mapped attempts. -/
def stealOthersGo : List Nat → List Bool → PState → StealRes × PState
  | [], _, s => (.Empty, s)
  | i :: is, cs, s =>
    match stealAt (cs.headD false) s i with
    | (.Success t, s') => (.Success t, s')
    | (.Empty, s') => stealOthersGo is cs.tail s'
    | (.Retry, s') =>
      match stealOthersGo is cs.tail s' with
      | (.Success t, s'') => (.Success t, s'')
      | (_, s'') => (.Retry, s'')

/-- `Processor::steal_from_others`: pick a starting index, iterate the
stealers (one per processor, built in `Runtime::new`) in rotated order. -/
def steal_from_others (start : Nat) (cs : List Bool) (s : PState) : StealRes × PState :=
  stealOthersGo (rotate (List.range s.queues.length) start) cs s

/-- `Machine::find_task`, for a machine that holds its processor: pop local,
steal global, non-blocking poll, conditional re-pop, steal from others;
collapse recorded retries at the end. -/
def find_task (env : FTEnv) (s : PState) : StealRes × PState :=
  match popTaskW s with
  | (some t, s1) => (.Success t, s1)
  | (none, s1) =>
    match steal_from_global env.gRetry s1 with
    | (.Success t, s2) => (.Success t, s2)
    | (g, s2) =>
      let pr := quick_pollW env.pollOk env.woken s2
      match (if pr.1 then popTaskW pr.2 else (none, pr.2)) with
      | (some t, s4) => (.Success t, s4)
      | (none, s4) =>
        match steal_from_others env.start env.peerRetry s4 with
        | (.Success t, s5) => (.Success t, s5)
        | (o, s5) => (if g = .Retry ∨ o = .Retry then .Retry else .Empty, s5)

/-- The outcome each steal attempt of `stealOthersGo` would report, threading
the state from attempt to attempt. -/
def attemptOut : List Nat → List Bool → PState → List StealRes
  | [], _, _ => []
  | i :: is, cs, s =>
    let r := stealAt (cs.headD false) s i
    r.1 :: attemptOut is cs.tail r.2

/-- Collapse of a list of steal outcomes, as in crossbeam's
`FromIterator for Steal`: the first success wins; otherwise `Retry` if any
outcome was `Retry`; otherwise `Empty`. -/
def stealCollect : List StealRes → StealRes
  | [] => .Empty
  | s :: rest =>
    match s with
    | .Success t => .Success t
    | .Empty => stealCollect rest
    | .Retry =>
      match stealCollect rest with
      | .Success t => .Success t
      | _ => .Retry

/-- The task carried by a successful outcome. -/
def successOf : StealRes → Option Nat
  | .Success t => some t
  | _ => none

/-!
## `Runtime::schedule` routing
-/

/-- Calling context of `Runtime::schedule`: a non-worker thread (the
`MACHINE` thread-local is unset), or a worker thread whose machine's
processor holder currently contains `proc` (`none` when stolen). -/
inductive CallerCtx where
  | external : CallerCtx
  | worker : Option Processor → CallerCtx
deriving Repr

/-- Result of one `Runtime::schedule` call: the global injector, the calling
worker's processor holder afterwards, and whether `Runtime::notify` ran. -/
structure SchedResult where
  injector : List Nat
  proc : Option Processor
  notified : Bool
deriving DecidableEq, Repr

/-- `Runtime::schedule` composed with `Machine::schedule`: a non-worker
thread pushes to the injector and notifies; a worker delegates to its
machine, which pushes to the injector and notifies when its processor has
been stolen and otherwise hands the task to `Processor::schedule`. -/
def runtime_schedule (caller : CallerCtx) (inj : List Nat) (task : Nat) : SchedResult :=
  match caller with
  | .external => ⟨inj ++ [task], none, true⟩
  | .worker none => ⟨inj ++ [task], none, true⟩
  | .worker (some p) =>
    let r := p.schedule task
    ⟨inj, some r.1, r.2⟩

/-!
## The coordinator's delay ramp (`Runtime::run`)
-/

def DELAY_MIN : Nat := 1250

def DELAY_MAX : Nat := 10000

/-- One iteration of the `Runtime::run` loop, given the delay value at the
top of the loop and whether `make_machines` returned any machine to spawn:
the delay is reset to `DELAY_MIN` on a spawn, then doubled and capped, then
slept; if it reached `DELAY_MAX` the coordinator parks and resumes with
`delay = DELAY_MIN`.  Returns (sleep duration, delay for the next iteration,
whether the coordinator parked). -/
def coordIter (delay : Nat) (spawned : Bool) : Nat × Nat × Bool :=
  let d1 := if spawned then DELAY_MIN else delay
  let d2 := Nat.min (d1 * 2) DELAY_MAX
  (d2, if d2 = DELAY_MAX then DELAY_MIN else d2, d2 = DELAY_MAX)

/-- The sleep durations of successive spawn-free iterations starting from
`delay`, up to and including the iteration that parks (with fuel `n`). -/
def coordRamp : Nat → Nat → List Nat
  | 0, _ => []
  | n + 1, delay =>
    let r := coordIter delay false
    if r.2.2 then [r.1] else r.1 :: coordRamp n r.2.1

/-!
## The scheduler-state transition system

An interleaving model of the runtime for the global invariants: the
scheduler's `polling` and `progress` flags, the count of idle processors,
and the machine threads.  Each machine thread carries: whether its machine
is currently an element of `sched.machines` (`inList`), whether its
processor spinlock currently holds the processor (`hasP`), its `progress`
flag, and its control location (`phase`).  Everything `make_machines` does
happens under the scheduler mutex and is one atomic step; spinlock
acquisition by the coordinator may fail, which the step's list of choice
booleans encodes.  Processor identity does not matter for the claims, so
idle processors are a count.
-/

/-- Control location of a machine thread. -/
inductive Phase where
  | running : Phase
  | sleepHold : Bool → Phase
  | inPoll : Phase
  | finished : Phase
deriving DecidableEq, Repr

/-- One machine (and the thread running it). -/
structure MThread where
  inList : Bool
  hasP : Bool
  prog : Bool
  phase : Phase
deriving DecidableEq, Repr

/-- Global scheduler state. -/
structure GState where
  polling : Bool
  sprog : Bool
  idle : Nat
  threads : List MThread
deriving DecidableEq, Repr

/-- `Machine::new` wrapped around a processor, listed and about to run:
`progress` starts `true`, the processor is in the spinlock. -/
def newMachineThread : MThread := ⟨true, true, true, .running⟩

/-- One step of the `make_machines` steal loop on one machine of
`sched.machines`: `progress.swap(false)`; if it was already false and the
processor spinlock is acquired (`c`) with a processor present, take the
processor, replace the machine in the list by a fresh machine around it, and
spawn that machine's thread. -/
def stealStep (c : Bool) (t : MThread) : List MThread :=
  if t.inList then
    if t.prog then [{ t with prog := false }]
    else if c ∧ t.hasP then
      [{ t with hasP := false, inList := false }, newMachineThread]
    else [t]
  else [t]

/-- The `make_machines` steal loop over all machines. -/
def stealAll : List Bool → List MThread → List MThread
  | _, [] => []
  | cs, t :: ts => stealStep (cs.headD false) t ++ stealAll cs.tail ts

/-- `Runtime::make_machines` (plus the spawning of the returned machines by
`Runtime::run`): the steal loop, then — only when no machine is polling — a
spawn from the idle list if `sched.progress` is false and an idle processor
exists, and the clearing of `sched.progress`. -/
def tickF (cs : List Bool) (s : GState) : GState :=
  let ts := stealAll cs s.threads
  if s.polling then { s with threads := ts }
  else if s.sprog = false ∧ 0 < s.idle then
    { polling := s.polling, sprog := false, idle := s.idle - 1,
      threads := ts ++ [newMachineThread] }
  else { s with sprog := false, threads := ts }

/-- Interleaved small-step transitions of the runtime, translated from
`Machine::run` and `Runtime::run`/`make_machines`. -/
inductive Step : GState → GState → Prop where
  /-- The coordinator runs `make_machines` under the scheduler lock and
  spawns the returned machines. -/
  | tick (cs : List Bool) (s : GState) : Step s (tickF cs s)
  /-- Loop top: `self.progress.store(true)`. -/
  | announce (s : GState) (i : Nat) (t : MThread) :
      s.threads[i]? = some t → t.phase = .running →
      Step s { s with threads := s.threads.set i { t with prog := true } }
  /-- Backoff sleep: `self.processor.lock().take()`, keeping the contents on
  the stack. -/
  | sleepTake (s : GState) (i : Nat) (t : MThread) :
      s.threads[i]? = some t → t.phase = .running →
      Step s { s with threads :=
        (s.threads.set i { t with hasP := false, phase := Phase.sleepHold t.hasP }) }
  /-- Backoff sleep end: put the taken contents back into the spinlock. -/
  | sleepPut (s : GState) (i : Nat) (t : MThread) (b : Bool) :
      s.threads[i]? = some t → t.phase = .sleepHold b →
      Step s { s with threads :=
        (s.threads.set i { t with hasP := b, phase := .running }) }
  /-- Loop exit (processor stolen, or `sched.polling` observed true, or the
  machine no longer in `sched.machines`): take the processor out of the
  spinlock; if present, push it onto the idle list and retain-remove the
  machine from the list. -/
  | exitLoop (s : GState) (i : Nat) (t : MThread) :
      s.threads[i]? = some t → t.phase = .running →
      (t.hasP = false ∨ s.polling = true ∨ t.inList = false) →
      Step s { s with
        idle := s.idle + (if t.hasP then 1 else 0),
        threads := (s.threads.set i
          { t with inList := if t.hasP then false else t.inList,
                   hasP := false, phase := .finished }) }
  /-- Poll duty entry, under the scheduler lock: `polling` observed false,
  the machine found in and swap-removed from `sched.machines`, `polling` set,
  lock dropped, blocking reactor poll entered. -/
  | enterPoll (s : GState) (i : Nat) (t : MThread) :
      s.threads[i]? = some t → t.phase = .running →
      s.polling = false → t.inList = true →
      Step s { s with
        polling := true,
        threads := (s.threads.set i { t with inList := false, phase := .inPoll }) }
  /-- Poll duty exit: re-take the scheduler lock, clear `polling`, push the
  machine back onto `sched.machines`, set `sched.progress`. -/
  | exitPoll (s : GState) (i : Nat) (t : MThread) :
      s.threads[i]? = some t → t.phase = .inPoll →
      Step s { s with
        polling := false,
        sprog := true,
        threads := (s.threads.set i { t with inList := true, phase := .running }) }

/-- `Runtime::new` with `n` processors: no machines, all processors idle,
both flags clear. -/
def initState (n : Nat) : GState := ⟨false, false, n, []⟩

/-- `Runtime::new`: `num_cpus::get().max(1)` processors are created. -/
def runtimeNewState (cpus : Nat) : GState := initState (Nat.max cpus 1)

/-- Reachability from the initial state. -/
inductive Reachable (n : Nat) : GState → Prop where
  | init : Reachable n (initState n)
  | step {s s' : GState} : Reachable n s → Step s s' → Reachable n s'

/-- Number of machine threads currently inside the reactor's blocking poll. -/
def pollCount (ts : List MThread) : Nat :=
  (ts.map fun t => if t.phase = .inPoll then 1 else 0).sum

/-- Processors accounted to one thread: one if its spinlock holds the
processor, plus one if the thread is in the backoff sleep holding the
processor on its stack (in transfer). -/
def heldCount (t : MThread) : Nat :=
  (if t.hasP then 1 else 0) +
    (match t.phase with
     | .sleepHold true => 1
     | _ => 0)

/-- Total processors accounted to machine threads. -/
def heldSum (ts : List MThread) : Nat := (ts.map heldCount).sum

/-- The inductive invariant: the number of threads in the blocking poll is
exactly the `polling` flag; idle plus thread-held processors is the
processor count; and a thread inside the backoff sleep has an empty
processor spinlock (it took the contents out onto its stack). -/
def SchedInv (n : Nat) (s : GState) : Prop :=
  pollCount s.threads = (if s.polling then 1 else 0) ∧
  s.idle + heldSum s.threads = n ∧
  ∀ t ∈ s.threads, ∀ b, t.phase = Phase.sleepHold b → t.hasP = false

/-!
## Theorems
-/

theorem schedule_fst (p : Processor) (a : Nat) :
    (p.schedule a).1 = ⟨p.worker ++ p.slot.toList, some a⟩ := by
  cases h : p.slot with
  | none => simp [Processor.schedule, h]
  | some s => simp [Processor.schedule, h]

theorem scheduleAll_append_last (ts : List Nat) :
    ∀ (p : Processor) (t : Nat),
      scheduleAll p (ts ++ [t]) = ⟨p.worker ++ p.slot.toList ++ ts, some t⟩ := by
  induction ts with
  | nil =>
    intro p t
    simp only [List.nil_append, scheduleAll, List.foldl_cons, List.foldl_nil]
    rw [schedule_fst]
    simp
  | cons a ts ih =>
    intro p t
    simp only [List.cons_append, scheduleAll, List.foldl_cons] at *
    rw [ih (p.schedule a).1 t, schedule_fst]
    simp

theorem drain_queue (w : List Nat) :
    drain w.length ⟨w, none⟩ = (w, ⟨[], none⟩) := by
  induction w with
  | nil => simp [drain]
  | cons a w ih => simp [drain, Processor.pop_task, ih]

theorem popAll_slot (w : List Nat) (t : Nat) :
    popAll ⟨w, some t⟩ = (t :: w, ⟨[], none⟩) := by
  simp only [popAll, Processor.size, Option.toList, List.length]
  simp [drain, Processor.pop_task, drain_queue w]

/-- C5: `Processor::schedule(task)` puts the task into the slot; if the slot
was empty the local queue is unchanged and no notify is requested; if the
slot held `old`, `old` is pushed onto the queue's tail and a notify is
requested. -/
theorem C5_processor_schedule (p : Processor) (task : Nat) :
    (p.schedule task).1.slot = some task ∧
    (p.slot = none →
      (p.schedule task).1.worker = p.worker ∧ (p.schedule task).2 = false) ∧
    (∀ old, p.slot = some old →
      (p.schedule task).1.worker = p.worker ++ [old] ∧ (p.schedule task).2 = true) := by
  refine ⟨?_, ?_, ?_⟩
  · rw [schedule_fst]
  · intro h
    simp [Processor.schedule, h]
  · intro old h
    simp [Processor.schedule, h]

theorem C5_processor_schedule_witness :
    ((Processor.mk [9] none).schedule 3).1.slot = some 3 ∧
    ((Processor.mk [9] none).slot = none →
      ((Processor.mk [9] none).schedule 3).1.worker = [9] ∧
        ((Processor.mk [9] none).schedule 3).2 = false) ∧
    (∀ old, (Processor.mk [9] none).slot = some old →
      ((Processor.mk [9] none).schedule 3).1.worker = [9] ++ [old] ∧
        ((Processor.mk [9] none).schedule 3).2 = true) :=
  C5_processor_schedule ⟨[9], none⟩ 3

/-- C6: scheduling `ts ++ [t]` on a processor and then popping everything
yields first the most recently scheduled task `t` (from the slot), then the
processor's prior contents, then the remaining tasks in the exact order they
were scheduled; the drain ends with the processor empty, whose `pop_task`
returns none.  Starting from a fresh processor this is exactly: last
scheduled first, then FIFO order of the rest. -/
theorem C6_fifo_with_slot (p : Processor) (ts : List Nat) (t : Nat) :
    popAll (scheduleAll p (ts ++ [t])) =
      (t :: (p.worker ++ p.slot.toList ++ ts), ⟨[], none⟩) ∧
    Processor.pop_task ⟨[], none⟩ = (none, ⟨[], none⟩) := by
  constructor
  · rw [scheduleAll_append_last, popAll_slot]
  · rfl

theorem stealOthersGo_collect :
    ∀ (is : List Nat) (cs : List Bool) (s : PState),
      (stealOthersGo is cs s).1 = stealCollect (attemptOut is cs s) := by
  intro is
  induction is with
  | nil => intro cs s; rfl
  | cons i is ih =>
    intro cs s
    simp only [stealOthersGo, attemptOut]
    rcases h : stealAt (cs.headD false) s i with ⟨r, s'⟩
    cases r with
    | Success t => simp [h, stealCollect]
    | Empty => simp [h, stealCollect, ih]
    | Retry =>
      simp only [h, stealCollect]
      have hh := ih cs.tail s'
      rcases h2 : stealOthersGo is cs.tail s' with ⟨r2, s''⟩
      rw [h2] at hh
      simp only at hh
      rw [← hh]
      cases r2 <;> simp

theorem stealCollect_first_success :
    ∀ l : List StealRes,
      stealCollect l =
        (match l.findSome? successOf with
         | some t => StealRes.Success t
         | none => if StealRes.Retry ∈ l then StealRes.Retry else StealRes.Empty) := by
  intro l
  induction l with
  | nil => rfl
  | cons a l ih =>
    cases a with
    | Success t => simp [stealCollect, List.findSome?_cons, successOf]
    | Empty => simp [stealCollect, List.findSome?_cons, successOf, ih]
    | Retry =>
      simp only [stealCollect, List.findSome?_cons, successOf, List.mem_cons, ih]
      cases h : l.findSome? successOf with
      | some t => simp
      | none => by_cases hr : StealRes.Retry ∈ l <;> simp [hr]

theorem mem_rotate {α : Type} {x : α} {l : List α} {s : Nat} :
    x ∈ rotate l s ↔ x ∈ l := by
  conv_rhs => rw [← List.take_append_drop s l]
  simp only [rotate, List.mem_append]
  tauto

/-- C7: `steal_from_others` iterates the stealers in rotated order starting
at the random index, each attempted at most once; its result collapses the
attempt outcomes exactly as crossbeam's `FromIterator for Steal` does: the
first success encountered wins, otherwise `Retry` when some attempt said
`Retry`, otherwise `Empty`. -/
theorem C7_steal_from_others (start : Nat) (cs : List Bool) (s : PState) :
    steal_from_others start cs s =
      stealOthersGo (rotate (List.range s.queues.length) start) cs s ∧
    (steal_from_others start cs s).1 =
      stealCollect (attemptOut (rotate (List.range s.queues.length) start) cs s) ∧
    (∀ l : List StealRes,
      stealCollect l =
        (match l.findSome? successOf with
         | some t => StealRes.Success t
         | none => if StealRes.Retry ∈ l then StealRes.Retry else StealRes.Empty)) := by
  refine ⟨rfl, ?_, stealCollect_first_success⟩
  exact stealOthersGo_collect _ cs s

/-- C10: the stealer list built by `Runtime::new` has one stealer per
processor, and `steal_from_others` iterates it without excluding the calling
machine's own index; concretely, with two processors, own queue `[5, 6]` and
the rotation starting at the own index, the machine steals a batch from its
own queue back into that queue and returns its own task `5`. -/
theorem C10_stealers_include_self :
    (∀ cpus own start : Nat, own < Nat.max cpus 1 →
      own ∈ rotate (runtimeStealerTargets cpus) start ∧
      (runtimeStealerTargets cpus).length = Nat.max cpus 1) ∧
    steal_from_others 0 [] ⟨none, [[5, 6], []], 0, []⟩ =
      (.Success 5, ⟨none, [[6], []], 0, []⟩) := by
  constructor
  · intro cpus own start h
    constructor
    · rw [mem_rotate]
      simpa [runtimeStealerTargets] using h
    · simp [runtimeStealerTargets]
  · rfl

theorem C10_stealers_include_self_witness :
    0 ∈ rotate (runtimeStealerTargets 2) 1 ∧
      (runtimeStealerTargets 2).length = Nat.max 2 1 :=
  C10_stealers_include_self.1 2 0 1 (by decide)

/-- C8: `Runtime::schedule` routing: a non-worker thread pushes to the
global injector and notifies; a worker thread whose processor was stolen
pushes to the global injector and notifies; a worker thread holding its
processor hands the task to `Processor::schedule`, which puts it in the
slot. -/
theorem C8_runtime_schedule (inj : List Nat) (task : Nat) :
    runtime_schedule .external inj task = ⟨inj ++ [task], none, true⟩ ∧
    runtime_schedule (.worker none) inj task = ⟨inj ++ [task], none, true⟩ ∧
    ∀ p : Processor,
      runtime_schedule (.worker (some p)) inj task =
        ⟨inj, some (p.schedule task).1, (p.schedule task).2⟩ ∧
      (p.schedule task).1.slot = some task := by
  refine ⟨rfl, rfl, fun p => ⟨rfl, ?_⟩⟩
  rw [schedule_fst]

/-- C3: `find_task` of a machine holding its processor performs, in order:
(1) `pop_task`, returning its task on success; (2) `steal_from_global`,
returning its task on success; (3) a non-blocking reactor poll; (4) a second
`pop_task` only if the poll reported progress, returning its task on
success; (5) `steal_from_others`, returning its task on success; and when no
step succeeded the result is `Retry` exactly when step 2 or step 5 reported
`Retry`, else `Empty`. -/
theorem C3_find_task (env : FTEnv) (s : PState) :
    (∀ t s1, popTaskW s = (some t, s1) → find_task env s = (.Success t, s1)) ∧
    (∀ s1 t s2, popTaskW s = (none, s1) →
      steal_from_global env.gRetry s1 = (.Success t, s2) →
      find_task env s = (.Success t, s2)) ∧
    (∀ s1 g s2, popTaskW s = (none, s1) →
      steal_from_global env.gRetry s1 = (g, s2) → (∀ t, g ≠ .Success t) →
      (∀ t s4, (quick_pollW env.pollOk env.woken s2).1 = true →
        popTaskW (quick_pollW env.pollOk env.woken s2).2 = (some t, s4) →
        find_task env s = (.Success t, s4)) ∧
      (∀ s4 t s5,
        (if (quick_pollW env.pollOk env.woken s2).1 then
            popTaskW (quick_pollW env.pollOk env.woken s2).2
          else (none, (quick_pollW env.pollOk env.woken s2).2)) = (none, s4) →
        steal_from_others env.start env.peerRetry s4 = (.Success t, s5) →
        find_task env s = (.Success t, s5)) ∧
      (∀ s4 o s5,
        (if (quick_pollW env.pollOk env.woken s2).1 then
            popTaskW (quick_pollW env.pollOk env.woken s2).2
          else (none, (quick_pollW env.pollOk env.woken s2).2)) = (none, s4) →
        steal_from_others env.start env.peerRetry s4 = (o, s5) →
        (∀ t, o ≠ .Success t) →
        find_task env s =
          ((if g = .Retry ∨ o = .Retry then .Retry else .Empty), s5))) := by
  refine ⟨?_, ?_, ?_⟩
  · intro t s1 h
    simp [find_task, h]
  · intro s1 t s2 h1 h2
    simp [find_task, h1, h2]
  · intro s1 g s2 h1 h2 hg
    refine ⟨?_, ?_, ?_⟩
    · intro t s4 hp h4
      cases g with
      | Success t' => exact absurd rfl (hg t')
      | Empty => simp [find_task, h1, h2, hp, h4]
      | Retry => simp [find_task, h1, h2, hp, h4]
    · intro s4 t s5 h4 h5
      cases g with
      | Success t' => exact absurd rfl (hg t')
      | Empty =>
        by_cases hp : (quick_pollW env.pollOk env.woken s2).1 = true
        · simp only [hp, if_true] at h4
          simp [find_task, h1, h2, hp, h4, h5]
        · simp only [Bool.not_eq_true] at hp
          simp only [hp] at h4
          simp at h4
          simp [find_task, h1, h2, hp, h4, h5]
      | Retry =>
        by_cases hp : (quick_pollW env.pollOk env.woken s2).1 = true
        · simp only [hp, if_true] at h4
          simp [find_task, h1, h2, hp, h4, h5]
        · simp only [Bool.not_eq_true] at hp
          simp only [hp] at h4
          simp at h4
          simp [find_task, h1, h2, hp, h4, h5]
    · intro s4 o s5 h4 h5 ho
      cases g with
      | Success t' => exact absurd rfl (hg t')
      | Empty =>
        cases o with
        | Success t' => exact absurd rfl (ho t')
        | Empty =>
          by_cases hp : (quick_pollW env.pollOk env.woken s2).1 = true
          · simp only [hp, if_true] at h4
            simp [find_task, h1, h2, hp, h4, h5]
          · simp only [Bool.not_eq_true] at hp
            simp only [hp] at h4
            simp at h4
            simp [find_task, h1, h2, hp, h4, h5]
        | Retry =>
          by_cases hp : (quick_pollW env.pollOk env.woken s2).1 = true
          · simp only [hp, if_true] at h4
            simp [find_task, h1, h2, hp, h4, h5]
          · simp only [Bool.not_eq_true] at hp
            simp only [hp] at h4
            simp at h4
            simp [find_task, h1, h2, hp, h4, h5]
      | Retry =>
        cases o with
        | Success t' => exact absurd rfl (ho t')
        | Empty =>
          by_cases hp : (quick_pollW env.pollOk env.woken s2).1 = true
          · simp only [hp, if_true] at h4
            simp [find_task, h1, h2, hp, h4, h5]
          · simp only [Bool.not_eq_true] at hp
            simp only [hp] at h4
            simp at h4
            simp [find_task, h1, h2, hp, h4, h5]
        | Retry =>
          by_cases hp : (quick_pollW env.pollOk env.woken s2).1 = true
          · simp only [hp, if_true] at h4
            simp [find_task, h1, h2, hp, h4, h5]
          · simp only [Bool.not_eq_true] at hp
            simp only [hp] at h4
            simp at h4
            simp [find_task, h1, h2, hp, h4, h5]

theorem C3_find_task_witness :
    find_task ⟨false, false, [], 0, []⟩ ⟨some 7, [[]], 0, []⟩ =
      (.Success 7, ⟨none, [[]], 0, []⟩) :=
  (C3_find_task ⟨false, false, [], 0, []⟩ ⟨some 7, [[]], 0, []⟩).1 7
    ⟨none, [[]], 0, []⟩ rfl

/-- C9 counterexample: in the iteration where a machine was spawned the
delay is reset to `DELAY_MIN` but doubled before sleeping, so the next sleep
is 2500 µs, never `DELAY_MIN = 1250` µs as the claim states. -/
theorem C9_counterexample :
    coordIter DELAY_MAX true = (2500, 2500, false) ∧
    (coordIter DELAY_MAX true).1 ≠ DELAY_MIN := by
  constructor
  · rfl
  · decide

/-- C9 (amended): the stored delay is reset to `DELAY_MIN = 1250` µs by a
spawn and after a park, but each iteration doubles it (capping at
`DELAY_MAX = 10000` µs) before sleeping, so the sleep durations ramp
2500, 5000, 10000 µs; the coordinator parks exactly when the capped delay
reached `DELAY_MAX`, and resumes from `DELAY_MIN`. -/
theorem C9_coordinator_delay (d : Nat) (spawned : Bool) :
    (coordIter d spawned).1 =
      Nat.min ((if spawned then DELAY_MIN else d) * 2) DELAY_MAX ∧
    ((coordIter d spawned).2.2 = true ↔ (coordIter d spawned).1 = DELAY_MAX) ∧
    ((coordIter d spawned).1 = DELAY_MAX → (coordIter d spawned).2.1 = DELAY_MIN) ∧
    ((coordIter d spawned).1 ≠ DELAY_MAX → (coordIter d spawned).2.1 = (coordIter d spawned).1) ∧
    coordRamp 10 DELAY_MIN = [2500, 5000, 10000] := by
  refine ⟨rfl, ?_, ?_, ?_, by decide⟩
  · simp [coordIter]
  · intro h
    simp [coordIter] at h ⊢
    simp [h]
  · intro h
    simp [coordIter] at h ⊢
    simp [h]

theorem C9_coordinator_delay_witness :
    (coordIter 10000 false).2.1 = DELAY_MIN ∧
      (coordIter 2500 false).2.1 = (coordIter 2500 false).1 :=
  ⟨(C9_coordinator_delay 10000 false).2.2.1 (by decide),
   (C9_coordinator_delay 2500 false).2.2.2.1 (by decide)⟩

theorem sum_map_set {α : Type} (f : α → Nat) :
    ∀ (l : List α) (i : Nat) (t t' : α), l[i]? = some t →
      ((l.set i t').map f).sum + f t = (l.map f).sum + f t' := by
  intro l
  induction l with
  | nil => intro i t t' h; simp at h
  | cons a l ih =>
    intro i t t' h
    cases i with
    | zero =>
      simp only [List.getElem?_cons_zero, Option.some_inj] at h
      subst h
      simp [List.set]
      omega
    | succ i =>
      simp only [List.getElem?_cons_succ] at h
      have := ih i t t' h
      simp only [List.set, List.map_cons, List.sum_cons]
      omega

theorem mem_of_getElem? {α : Type} :
    ∀ (l : List α) (i : Nat) (t : α), l[i]? = some t → t ∈ l := by
  intro l
  induction l with
  | nil => intro i t h; simp at h
  | cons a l ih =>
    intro i t h
    cases i with
    | zero =>
      simp only [List.getElem?_cons_zero, Option.some_inj] at h
      simp [h]
    | succ i =>
      simp only [List.getElem?_cons_succ] at h
      exact List.mem_cons_of_mem a (ih i t h)

theorem stealStep_pollCount (c : Bool) (t : MThread) :
    pollCount (stealStep c t) = (if t.phase = .inPoll then 1 else 0) := by
  unfold stealStep
  split
  · split
    · simp [pollCount]
    · split
      · simp [pollCount, newMachineThread]
      · simp [pollCount]
  · simp [pollCount]

theorem stealStep_heldSum (c : Bool) (t : MThread) :
    heldSum (stealStep c t) = heldCount t := by
  unfold stealStep
  split
  · split
    · simp [heldSum, heldCount]
    · split
      · rename_i hin hprog hc
        simp only [heldSum, List.map_cons, List.map_nil, List.sum_cons,
          List.sum_nil, heldCount, newMachineThread, hc.2]
        simp
        omega
      · simp [heldSum, heldCount]
  · simp [heldSum, heldCount]

theorem stealStep_sleepSafe (c : Bool) (t : MThread)
    (h : ∀ b, t.phase = Phase.sleepHold b → t.hasP = false) :
    ∀ u ∈ stealStep c t, ∀ b, u.phase = Phase.sleepHold b → u.hasP = false := by
  unfold stealStep
  split
  · split
    · intro u hu
      simp at hu
      subst hu
      exact h
    · split
      · intro u hu b hb
        simp at hu
        rcases hu with hu | hu
        · simp [hu]
        · subst hu
          simp [newMachineThread] at hb
      · intro u hu
        simp at hu
        subst hu
        exact h
  · intro u hu
    simp at hu
    subst hu
    exact h

theorem stealAll_pollCount :
    ∀ (ts : List MThread) (cs : List Bool),
      pollCount (stealAll cs ts) = pollCount ts := by
  intro ts
  induction ts with
  | nil => intro cs; cases cs <;> rfl
  | cons t ts ih =>
    intro cs
    have happ : ∀ l1 l2 : List MThread,
        pollCount (l1 ++ l2) = pollCount l1 + pollCount l2 := by
      intro l1 l2; simp [pollCount]
    simp only [stealAll, happ, stealStep_pollCount, ih]
    simp [pollCount]

theorem stealAll_heldSum :
    ∀ (ts : List MThread) (cs : List Bool),
      heldSum (stealAll cs ts) = heldSum ts := by
  intro ts
  induction ts with
  | nil => intro cs; cases cs <;> rfl
  | cons t ts ih =>
    intro cs
    have happ : ∀ l1 l2 : List MThread,
        heldSum (l1 ++ l2) = heldSum l1 + heldSum l2 := by
      intro l1 l2; simp [heldSum]
    simp only [stealAll, happ, stealStep_heldSum, ih]
    simp [heldSum]

theorem stealAll_sleepSafe :
    ∀ (ts : List MThread) (cs : List Bool),
      (∀ t ∈ ts, ∀ b, t.phase = Phase.sleepHold b → t.hasP = false) →
      ∀ u ∈ stealAll cs ts, ∀ b, u.phase = Phase.sleepHold b → u.hasP = false := by
  intro ts
  induction ts with
  | nil => intro cs h u hu; simp [stealAll] at hu
  | cons t ts ih =>
    intro cs h u hu
    simp only [stealAll, List.mem_append] at hu
    rcases hu with hu | hu
    · exact stealStep_sleepSafe _ t (h t (by simp)) u hu
    · exact ih cs.tail (fun x hx => h x (List.mem_cons_of_mem t hx)) u hu

theorem mem_set_cases {α : Type} :
    ∀ (l : List α) (i : Nat) (t' u : α), u ∈ l.set i t' → u ∈ l ∨ u = t' := by
  intro l
  induction l with
  | nil => intro i t' u h; simp [List.set] at h
  | cons a l ih =>
    intro i t' u h
    cases i with
    | zero =>
      simp only [List.set, List.mem_cons] at h
      rcases h with h | h
      · right; exact h
      · left; exact List.mem_cons_of_mem a h
    | succ i =>
      simp only [List.set, List.mem_cons] at h
      rcases h with h | h
      · left; simp [h]
      · rcases ih i t' u h with h' | h'
        · left; exact List.mem_cons_of_mem a h'
        · right; exact h'

theorem schedInv_set {n : Nat} {s : GState} (h : SchedInv n s) (i : Nat)
    (t t' : MThread) (hget : s.threads[i]? = some t)
    (hpoll : (if t'.phase = Phase.inPoll then 1 else 0) =
      (if t.phase = Phase.inPoll then 1 else 0))
    (hheld : heldCount t' = heldCount t)
    (hsleep : ∀ b, t'.phase = Phase.sleepHold b → t'.hasP = false) :
    SchedInv n { s with threads := s.threads.set i t' } := by
  obtain ⟨h1, h2, h3⟩ := h
  have hp := sum_map_set (fun u => if u.phase = Phase.inPoll then 1 else 0)
    s.threads i t t' hget
  have hh := sum_map_set heldCount s.threads i t t' hget
  refine ⟨?_, ?_, ?_⟩
  · simp only [pollCount] at h1 ⊢
    simp only at hp
    omega
  · simp only [heldSum] at h2 ⊢
    omega
  · intro u hu b hb
    rcases mem_set_cases s.threads i t' u hu with h' | h'
    · exact h3 u h' b hb
    · subst h'; exact hsleep b hb

theorem schedInv_step {n : Nat} {s s' : GState}
    (hInv : SchedInv n s) (hs : Step s s') : SchedInv n s' := by
  obtain ⟨h1, h2, h3⟩ := hInv
  cases hs with
  | tick cs =>
    unfold tickF
    split
    · rename_i hpol
      refine ⟨?_, ?_, ?_⟩
      · simpa [stealAll_pollCount] using h1
      · simpa [stealAll_heldSum] using h2
      · exact stealAll_sleepSafe s.threads cs h3
    · rename_i hpol
      split
      · rename_i hcond
        have happ : ∀ l1 l2 : List MThread,
            pollCount (l1 ++ l2) = pollCount l1 + pollCount l2 := by
          intro l1 l2; simp [pollCount]
        have happh : ∀ l1 l2 : List MThread,
            heldSum (l1 ++ l2) = heldSum l1 + heldSum l2 := by
          intro l1 l2; simp [heldSum]
        refine ⟨?_, ?_, ?_⟩
        · simp only [happ, stealAll_pollCount]
          simp only [Bool.not_eq_true] at hpol
          rw [hpol] at h1
          simp only [pollCount] at h1 ⊢
          simp at h1
          simp [newMachineThread, hpol, h1]
        · simp only [happh, stealAll_heldSum]
          simp only [heldSum]
          have : heldCount newMachineThread = 1 := by rfl
          simp only [List.map_cons, List.map_nil, List.sum_cons, List.sum_nil, this]
          simp only [heldSum] at h2
          omega
        · intro u hu b hb
          simp only [List.mem_append] at hu
          rcases hu with hu | hu
          · exact stealAll_sleepSafe s.threads cs h3 u hu b hb
          · simp at hu
            subst hu
            simp [newMachineThread] at hb
      · refine ⟨?_, ?_, ?_⟩
        · simp only [Bool.not_eq_true] at hpol
          simp only [hpol] at h1
          simpa [stealAll_pollCount, hpol] using h1
        · simpa [stealAll_heldSum] using h2
        · exact stealAll_sleepSafe s.threads cs h3
  | announce _ i t hget hph =>
    exact schedInv_set ⟨h1, h2, h3⟩ i t _ hget (by simp) (by simp [heldCount])
      (by intro b hb; simp [hph] at hb)
  | sleepTake _ i t hget hph =>
    refine schedInv_set ⟨h1, h2, h3⟩ i t _ hget ?_ ?_ ?_
    · simp [hph]
    · simp [heldCount, hph]
      cases t.hasP <;> simp
    · intro b hb; simp
  | sleepPut _ i t b hget hph =>
    have hfalse : t.hasP = false := h3 t (mem_of_getElem? s.threads i t hget) b hph
    refine schedInv_set ⟨h1, h2, h3⟩ i t _ hget ?_ ?_ ?_
    · simp [hph]
    · simp [heldCount, hph, hfalse]
      cases b <;> simp
    · intro b' hb'; simp at hb'
  | exitLoop _ i t hget hph hcond =>
    have hp := sum_map_set (fun u => if u.phase = Phase.inPoll then 1 else 0)
      s.threads i t
      { t with inList := if t.hasP then false else t.inList,
               hasP := false, phase := Phase.finished } hget
    have hh := sum_map_set heldCount s.threads i t
      { t with inList := if t.hasP then false else t.inList,
               hasP := false, phase := Phase.finished } hget
    refine ⟨?_, ?_, ?_⟩
    · simp only [pollCount] at h1 ⊢
      simp [hph] at hp
      simp [hph]
      omega
    · simp only [heldSum] at h2 ⊢
      have hct : heldCount t = (if t.hasP then 1 else 0) := by
        simp [heldCount, hph]
      have hct' : heldCount
          { t with inList := if t.hasP then false else t.inList,
                   hasP := false, phase := Phase.finished } = 0 := by
        simp [heldCount]
      rw [hct'] at hh
      rw [hct] at hh
      omega
    · intro u hu b hb
      rcases mem_set_cases s.threads i _ u hu with h' | h'
      · exact h3 u h' b hb
      · subst h'; simp at hb
  | enterPoll _ i t hget hph hpol hlist =>
    have hp := sum_map_set (fun u => if u.phase = Phase.inPoll then 1 else 0)
      s.threads i t { t with inList := false, phase := Phase.inPoll } hget
    have hh := sum_map_set heldCount s.threads i t
      { t with inList := false, phase := Phase.inPoll } hget
    refine ⟨?_, ?_, ?_⟩
    · simp only [pollCount] at h1 ⊢
      simp [hph] at hp
      rw [hpol] at h1
      simp at h1
      simp [h1]
      omega
    · simp only [heldSum] at h2 ⊢
      have : heldCount { t with inList := false, phase := Phase.inPoll } =
          heldCount t := by
        simp [heldCount, hph]
      rw [this] at hh
      omega
    · intro u hu b hb
      rcases mem_set_cases s.threads i _ u hu with h' | h'
      · exact h3 u h' b hb
      · subst h'; simp at hb
  | exitPoll _ i t hget hph =>
    have hp := sum_map_set (fun u => if u.phase = Phase.inPoll then 1 else 0)
      s.threads i t { t with inList := true, phase := Phase.running } hget
    have hh := sum_map_set heldCount s.threads i t
      { t with inList := true, phase := Phase.running } hget
    refine ⟨?_, ?_, ?_⟩
    · simp only [pollCount] at h1 ⊢
      simp [hph] at hp
      cases hsp : s.polling with
      | true => rw [hsp] at h1; simp at h1; simp [h1]; omega
      | false => rw [hsp] at h1; simp at h1; simp [h1]; omega
    · simp only [heldSum] at h2 ⊢
      have : heldCount { t with inList := true, phase := Phase.running } =
          heldCount t := by
        simp [heldCount, hph]
      rw [this] at hh
      omega
    · intro u hu b hb
      rcases mem_set_cases s.threads i _ u hu with h' | h'
      · exact h3 u h' b hb
      · subst h'; simp at hb

theorem reachable_schedInv {n : Nat} {s : GState} (h : Reachable n s) :
    SchedInv n s := by
  induction h with
  | init => refine ⟨rfl, by simp [initState, heldSum], by simp [initState]⟩
  | step _ hs ih => exact schedInv_step ih hs

/-- C1: at every reachable state, at most one machine thread is inside the
reactor's blocking poll.  The protocol appears in the `Step` relation: a
machine enters the blocking poll only through `enterPoll` (scheduler lock
held, `polling` observed false, self removed from the machines list,
`polling` set), exits its run loop via `exitLoop` when it observes
`polling == true`, and on poll return (`exitPoll`) re-takes the lock, clears
`polling`, and re-inserts itself. -/
theorem C1_single_poller (n : Nat) (s : GState) (h : Reachable n s) :
    pollCount s.threads ≤ 1 := by
  have hi := reachable_schedInv h
  rw [hi.1]
  cases s.polling <;> simp

theorem C1_single_poller_witness :
    pollCount [MThread.mk false true true Phase.inPoll] ≤ 1 := by
  have h1 : Reachable 1 ⟨false, false, 0, [newMachineThread]⟩ := by
    have hr := Reachable.step (n := 1) Reachable.init (Step.tick [] (initState 1))
    have he : tickF [] (initState 1) = ⟨false, false, 0, [newMachineThread]⟩ := by
      decide
    rwa [he] at hr
  have h2 : Step ⟨false, false, 0, [newMachineThread]⟩
      ⟨true, false, 0, [⟨false, true, true, Phase.inPoll⟩]⟩ :=
    Step.enterPoll ⟨false, false, 0, [newMachineThread]⟩ 0 newMachineThread
      rfl rfl rfl rfl
  exact C1_single_poller 1 _ (Reachable.step h1 h2)

/-- C2: `Runtime::new` creates `max(cpus, 1)` processors, and at every
reachable state the sum of idle processors and processors accounted to
machine threads (held in a spinlock, or taken out onto a stack during the
backoff sleep) equals that count: the coordinator's steal-and-replace, the
backoff relinquish, and the loop-exit return all conserve processors. -/
theorem C2_processor_conservation (cpus : Nat) (s : GState)
    (h : Reachable (Nat.max cpus 1) s) :
    (runtimeNewState cpus).idle = Nat.max cpus 1 ∧
    s.idle + heldSum s.threads = Nat.max cpus 1 :=
  ⟨rfl, (reachable_schedInv h).2.1⟩

theorem C2_processor_conservation_witness :
    (runtimeNewState 2).idle = Nat.max 2 1 ∧
      (GState.mk false false 1 [newMachineThread]).idle +
        heldSum [newMachineThread] = Nat.max 2 1 := by
  have he : tickF [] (initState (Nat.max 2 1)) =
      ⟨false, false, 1, [newMachineThread]⟩ := by decide
  have h1 : Reachable (Nat.max 2 1) ⟨false, false, 1, [newMachineThread]⟩ := by
    have hr := Reachable.step (n := Nat.max 2 1) Reachable.init
      (Step.tick [] (initState (Nat.max 2 1)))
    rwa [he] at hr
  exact C2_processor_conservation 2 _ h1

/-- C4: one `make_machines` call: the steal pass applies `stealStep` to each
listed machine — reading and clearing its `progress` flag, and when the flag
was false and its processor lock is acquired with a processor present,
taking the processor, replacing the machine in the list and marking the
replacement for spawning; then, only if no machine is polling, a further
machine is spawned around a popped idle processor exactly when the
scheduler-level `progress` flag is false and an idle processor exists, and
the scheduler-level `progress` flag is cleared. -/
theorem C4_make_machines (cs : List Bool) (s : GState) :
    (tickF cs s).polling = s.polling ∧
    (s.polling = true → tickF cs s = { s with threads := stealAll cs s.threads }) ∧
    (s.polling = false →
      (tickF cs s).sprog = false ∧
      (s.sprog = false ∧ 0 < s.idle →
        tickF cs s = ⟨s.polling, false, s.idle - 1,
          stealAll cs s.threads ++ [newMachineThread]⟩) ∧
      (¬(s.sprog = false ∧ 0 < s.idle) →
        tickF cs s = { s with sprog := false, threads := stealAll cs s.threads })) ∧
    (∀ (c : Bool) (t : MThread), t.inList = true →
      (t.prog = true → stealStep c t = [{ t with prog := false }]) ∧
      (t.prog = false → c = true → t.hasP = true →
        stealStep c t = [{ t with hasP := false, inList := false }, newMachineThread]) ∧
      (t.prog = false → c = false ∨ t.hasP = false → stealStep c t = [t])) ∧
    (∀ (c : Bool) (t : MThread), t.inList = false → stealStep c t = [t]) := by
  refine ⟨?_, ?_, ?_, ?_, ?_⟩
  · unfold tickF
    split
    · rfl
    · split <;> rfl
  · intro h
    simp [tickF, h]
  · intro h
    refine ⟨?_, ?_, ?_⟩
    · unfold tickF
      rw [if_neg (by simp [h])]
      split <;> rfl
    · intro hc
      simp [tickF, h, hc.1, hc.2]
    · intro hc
      simp only [tickF]
      rw [if_neg (by simp [h]), if_neg hc]
  · intro c t hin
    refine ⟨?_, ?_, ?_⟩
    · intro hp
      simp [stealStep, hin, hp]
    · intro hp hc hP
      simp [stealStep, hin, hp, hc, hP]
    · intro hp hd
      rcases hd with hd | hd <;> simp [stealStep, hin, hp, hd]
  · intro c t hin
    simp [stealStep, hin]

theorem C4_make_machines_witness :
    tickF [true] ⟨false, false, 1, [⟨true, true, false, Phase.running⟩]⟩ =
      ⟨false, false, 0,
        stealAll [true] [⟨true, true, false, Phase.running⟩] ++ [newMachineThread]⟩ :=
  (((C4_make_machines [true]
      ⟨false, false, 1, [⟨true, true, false, Phase.running⟩]⟩).2.2.1 rfl).2.1)
    ⟨rfl, by decide⟩
